import Mathlib

/-!
Shallow embedding of the prioritized-experience-replay core of
`src/per.py`: the class `PER` (fields `prob_alpha`, `capacity`, `memory`,
`pos`, `priorities` and methods `push`, `sample`, `update_priorities`,
`__len__`), the scheduler `beta_by_frame`, and the arithmetic of
`optimize_model` (bootstrap targets, loss, new priorities).

Modelling conventions: Python floats are modelled as exact rationals
(`ℚ`) where the code only adds, multiplies, compares and takes maxima;
the real-valued power operations of `sample` (`** alpha`, `** (-beta)`)
are modelled with `Real.rpow`.  The random draw of `np.random.choice`
is modelled by passing the drawn index list as a parameter, constrained
by the guarantees `np.random.choice` provides (correct length, indices
in range, only indices of positive probability).  A transition record is
an opaque value of a type parameter `α`.
-/

/-- Maximum of a list, as `numpy.ndarray.max` computes it.  The default
`d` is only for the empty list, on which numpy would raise; every use in
the development has a nonempty list. -/
def npmax {α : Type} [LinearOrder α] (d : α) : List α → α
  | [] => d
  | x :: xs => xs.foldl max x

lemma le_foldl_max {α : Type} [LinearOrder α] (xs : List α) (a : α) :
    a ≤ xs.foldl max a := by
  induction xs generalizing a with
  | nil => exact le_refl a
  | cons y ys ih => exact le_trans (le_max_left a y) (ih (max a y))

lemma mem_le_foldl_max {α : Type} [LinearOrder α] (xs : List α) (a b : α)
    (h : b ∈ xs) : b ≤ xs.foldl max a := by
  induction xs generalizing a with
  | nil => cases h
  | cons y ys ih =>
    rcases List.mem_cons.mp h with rfl | hmem
    · exact le_trans (le_max_right a b) (le_foldl_max ys (max a b))
    · exact ih (max a y) hmem

lemma foldl_max_eq_or_mem {α : Type} [LinearOrder α] (xs : List α) (a : α) :
    xs.foldl max a = a ∨ xs.foldl max a ∈ xs := by
  induction xs generalizing a with
  | nil => exact Or.inl rfl
  | cons y ys ih =>
    rcases ih (max a y) with h | h
    · rcases max_choice a y with hm | hm
      · exact Or.inl (by rw [List.foldl_cons, h, hm])
      · exact Or.inr (by rw [List.foldl_cons, h, hm]; exact List.mem_cons_self y ys)
    · exact Or.inr (List.mem_cons_of_mem y h)

lemma le_npmax_of_mem {α : Type} [LinearOrder α] (d : α) (l : List α) (b : α)
    (h : b ∈ l) : b ≤ npmax d l := by
  cases l with
  | nil => cases h
  | cons x xs =>
    rcases List.mem_cons.mp h with rfl | hmem
    · exact le_foldl_max xs b
    · exact mem_le_foldl_max xs x b hmem

lemma npmax_mem {α : Type} [LinearOrder α] (d : α) (l : List α) (h : l ≠ []) :
    npmax d l ∈ l := by
  cases l with
  | nil => exact absurd rfl h
  | cons x xs =>
    show xs.foldl max x ∈ x :: xs
    rcases foldl_max_eq_or_mem xs x with heq | hmem
    · rw [heq]; exact List.mem_cons_self x xs
    · exact List.mem_cons_of_mem x hmem

lemma npmax_eq_of_mem_of_le {α : Type} [LinearOrder α] (d : α) (l : List α)
    (m : α) (hmem : m ∈ l) (hle : ∀ b ∈ l, b ≤ m) : npmax d l = m :=
  le_antisymm (hle _ (npmax_mem d l (List.ne_nil_of_mem hmem)))
    (le_npmax_of_mem d l m hmem)

/-- `l.getD` after `l.set` at the written index. -/
lemma getD_set_eq {α : Type} (l : List α) (d : α) (i : ℕ) (v : α)
    (h : i < l.length) : (l.set i v).getD i d = v := by
  induction l generalizing i with
  | nil => simp at h
  | cons x xs ih =>
    cases i with
    | zero => rfl
    | succ j => exact ih j (by simpa using h)

/-- `l.getD` after `l.set` at a different index. -/
lemma getD_set_ne {α : Type} (l : List α) (d : α) (i j : ℕ) (v : α)
    (h : i ≠ j) : (l.set i v).getD j d = l.getD j d := by
  induction l generalizing i j with
  | nil => rfl
  | cons x xs ih =>
    cases i with
    | zero => cases j with
      | zero => exact absurd rfl h
      | succ k => rfl
    | succ i0 => cases j with
      | zero => rfl
      | succ k => exact ih i0 k (by omega)

/-- State of the replay buffer: the attributes of class `PER` in
`src/per.py` (`prob_alpha`, `capacity`, `memory`, `pos`,
`priorities`).  `α` is the type of one stored transition record. -/
structure PER (α : Type) where
  prob_alpha : ℝ
  capacity : ℕ
  memory : List α
  pos : ℕ
  priorities : List ℚ

/-- `PER.__init__`: empty memory, write cursor `0`, priorities a
zero-filled array of length `capacity` (`np.zeros((capacity,))`). -/
def PER.init (α : Type) (capacity : ℕ) (prob_alpha : ℝ) : PER α :=
  ⟨prob_alpha, capacity, [], 0, List.replicate capacity 0⟩

/-- `PER.push`: seed `max_prio` as `self.priorities.max()` over the whole
store when the memory is nonempty, else `1.0`; append the transition if
`len(memory) < capacity`, otherwise overwrite slot `pos`; write
`priorities[pos] = max_prio`; advance `pos = (pos + 1) % capacity`. -/
def PER.push {α : Type} (st : PER α) (t : α) : PER α :=
  let max_prio : ℚ := if st.memory.isEmpty then 1 else npmax 0 st.priorities
  { st with
    memory := if st.memory.length < st.capacity then st.memory ++ [t]
              else st.memory.set st.pos t,
    priorities := st.priorities.set st.pos max_prio,
    pos := (st.pos + 1) % st.capacity }

/-- `PER.__len__`: `len(self.memory)`. -/
def PER.len {α : Type} (st : PER α) : ℕ := st.memory.length

/-- `PER.update_priorities`: `for idx, prio in zip(batch_indices,
batch_priorities): self.priorities[idx] = prio[0]`.  Each priority
payload is a row whose first element is taken; Python's `zip` stops at
the shorter of the two sequences. -/
def PER.update_priorities {α : Type} (st : PER α) (batch_indices : List ℕ)
    (batch_priorities : List (List ℚ)) : PER α :=
  { st with
    priorities := (batch_indices.zip batch_priorities).foldl
      (fun acc ip => acc.set ip.1 (ip.2.headD 0)) st.priorities }

/-- The slice of the priority store `PER.sample` draws from:
`self.priorities` when the buffer is full, else `self.priorities[:self.pos]`. -/
def meaningfulPrios {α : Type} (st : PER α) : List ℚ :=
  if st.memory.length = st.capacity then st.priorities
  else st.priorities.take st.pos

/-- Structural invariants of the buffer, established by `__init__` and
kept by every method. -/
def PER.WF {α : Type} (st : PER α) : Prop :=
  0 < st.capacity ∧ st.priorities.length = st.capacity ∧
  st.memory.length ≤ st.capacity ∧ st.pos < st.capacity ∧
  (st.memory.length < st.capacity → st.pos = st.memory.length)

instance {α : Type} (st : PER α) : Decidable st.WF := by
  unfold PER.WF; infer_instance

lemma wf_init (α : Type) (c : ℕ) (a : ℝ) (hc : 0 < c) : (PER.init α c a).WF := by
  refine ⟨hc, by simp [PER.init], by simp [PER.init], by simpa [PER.init] using hc,
    fun _ => rfl⟩

lemma wf_push {α : Type} (st : PER α) (t : α) (hwf : st.WF) : (st.push t).WF := by
  obtain ⟨hc, hplen, hmlen, hpos, hcur⟩ := hwf
  refine ⟨hc, ?_, ?_, ?_, ?_⟩
  · simpa [PER.push] using hplen
  · by_cases h : st.memory.length < st.capacity
    · simp only [PER.push, if_pos h, List.length_append, List.length_singleton]
      omega
    · simpa [PER.push, if_neg h] using hmlen
  · exact Nat.mod_lt _ hc
  · intro hlt
    by_cases h : st.memory.length < st.capacity
    · simp only [PER.push, if_pos h, List.length_append, List.length_singleton] at hlt ⊢
      have hp := hcur h
      rw [Nat.mod_eq_of_lt (by omega)]
      omega
    · simp only [PER.push, if_neg h, List.length_set] at hlt
      exact absurd hlt h

/-- `beta_start = 0.4`. -/
def beta_start : ℚ := 2/5

/-- `beta_frames = 1000`. -/
def beta_frames : ℚ := 1000

/-- The lambda `beta_by_frame` of `src/per.py`:
`min(1.0, beta_start + frame_idx * (1.0 - beta_start) / beta_frames)`. -/
def beta_by_frame (frame_idx : ℕ) : ℚ :=
  min 1 (beta_start + frame_idx * (1 - beta_start) / beta_frames)

/-- `BATCH_SIZE = 32`. -/
def BATCH_SIZE : ℕ := 32

/-- `GAMMA = 0.8`. -/
def GAMMA : ℚ := 4/5

/-- C8: the beta scheduler is
`beta(step) = min(1.0, beta_start + step * (1.0 - beta_start) / beta_frames)`
with `beta_start = 0.4` and `beta_frames = 1000`; it satisfies
`beta(0) = 0.4`, `beta(beta_frames) = 1.0`, is monotonically
non-decreasing in the step, and is clamped at `1.0` for every step beyond
the ramp. -/
theorem beta_by_frame_schedule :
    beta_by_frame 0 = 2/5 ∧ beta_by_frame 1000 = 1 ∧
    (∀ a b : ℕ, a ≤ b → beta_by_frame a ≤ beta_by_frame b) ∧
    (∀ s : ℕ, 1000 ≤ s → beta_by_frame s = 1) := by
  refine ⟨by norm_num [beta_by_frame, beta_start, beta_frames],
    by norm_num [beta_by_frame, beta_start, beta_frames], ?_, ?_⟩
  · intro a b hab
    have hq : (a : ℚ) ≤ (b : ℚ) := by exact_mod_cast hab
    unfold beta_by_frame beta_start beta_frames
    apply min_le_min le_rfl
    nlinarith
  · intro s hs
    have hq : (1000 : ℚ) ≤ (s : ℚ) := by exact_mod_cast hs
    unfold beta_by_frame beta_start beta_frames
    apply min_eq_left
    nlinarith

/-- Witness for C8 at concrete steps. -/
theorem beta_by_frame_schedule_witness :
    beta_by_frame 250 ≤ beta_by_frame 600 ∧ beta_by_frame 2026 = 1 :=
  ⟨beta_by_frame_schedule.2.2.1 250 600 (by decide),
   beta_by_frame_schedule.2.2.2 2026 (by decide)⟩

/-- C2: the priority written into the new slot by `push` equals the
maximum priority present in the priority store immediately before the
push, or exactly `1.0` on the very first push (empty memory). -/
theorem push_seeds_max_priority {α : Type} (st : PER α) (t : α) (hwf : st.WF) :
    (st.memory = [] → (st.push t).priorities.getD st.pos 0 = 1) ∧
    (st.memory ≠ [] →
      (∀ p ∈ st.priorities, p ≤ (st.push t).priorities.getD st.pos 0) ∧
      (st.push t).priorities.getD st.pos 0 ∈ st.priorities) := by
  obtain ⟨hc, hplen, hmlen, hpos, hcur⟩ := hwf
  have hlt : st.pos < st.priorities.length := by omega
  have hget : (st.push t).priorities.getD st.pos 0 =
      (if st.memory.isEmpty then 1 else npmax 0 st.priorities) := by
    simp only [PER.push]
    exact getD_set_eq _ _ _ _ hlt
  constructor
  · intro hmem
    rw [hget, if_pos (by simp [hmem])]
  · intro hne
    rw [hget, if_neg (by simpa using hne)]
    have hpne : st.priorities ≠ [] := by
      intro h
      rw [h] at hplen
      simp at hplen
      omega
    exact ⟨fun p hp => le_npmax_of_mem 0 _ p hp, npmax_mem 0 _ hpne⟩

/-- Witness for C2: a buffer holding one transition with store `[7, 0]`
writes a priority that dominates the store and belongs to it. -/
theorem push_seeds_max_priority_witness :
    (7 : ℚ) ≤ ((PER.mk (0:ℝ) 2 [()] 1 [7, 0]).push ()).priorities.getD 1 0 ∧
    ((PER.mk (0:ℝ) 2 [()] 1 [7, 0]).push ()).priorities.getD 1 0 ∈ [(7:ℚ), 0] := by
  have h := (push_seeds_max_priority (PER.mk (0:ℝ) 2 [()] 1 [7, 0]) ()
    (by constructor <;> simp)).2 (by simp)
  exact ⟨h.1 7 (by decide), h.2⟩

/-- The memory contents after pushing `ts` into a fresh buffer of
capacity `c`: before the wrap, the pushes in order; from the wrap on,
the most recent `c` pushes, rotated so that slot `j` holds the latest
push whose index is congruent to `j` modulo `c`. -/
def memModel {α : Type} (c : ℕ) (ts : List α) : List α :=
  if ts.length < c then ts
  else ts.drop (ts.length - ts.length % c) ++
    (ts.drop (ts.length - c)).take (c - ts.length % c)

/-- Pushing a list of transitions in order. -/
def PER.pushAll {α : Type} (st : PER α) (ts : List α) : PER α :=
  ts.foldl PER.push st

lemma pushAll_append {α : Type} (st : PER α) (ts : List α) (t : α) :
    st.pushAll (ts ++ [t]) = (st.pushAll ts).push t := by
  simp [PER.pushAll, List.foldl_append]

lemma push_memory {α : Type} (st : PER α) (t : α) :
    (st.push t).memory =
      if st.memory.length < st.capacity then st.memory ++ [t]
      else st.memory.set st.pos t := rfl

lemma push_pos_eq {α : Type} (st : PER α) (t : α) :
    (st.push t).pos = (st.pos + 1) % st.capacity := rfl

lemma push_capacity {α : Type} (st : PER α) (t : α) :
    (st.push t).capacity = st.capacity := rfl

lemma memModel_length {α : Type} (c : ℕ) (hc : 0 < c) (ts : List α) :
    (memModel c ts).length = min ts.length c := by
  unfold memModel
  split
  · omega
  · simp only [List.length_append, List.length_drop, List.length_take]
    have := Nat.mod_le ts.length c
    have := Nat.mod_lt ts.length hc
    omega

lemma set_append_left_length {α : Type} (A B : List α) (y : α) :
    (A ++ B).set A.length y = A ++ B.set 0 y := by
  induction A with
  | nil => simp
  | cons a as ih => simp [ih]

lemma set_append_eq {α : Type} (A B : List α) (k : ℕ) (y : α)
    (h : A.length = k) : (A ++ B).set k y = A ++ B.set 0 y := by
  subst h
  exact set_append_left_length A B y

lemma memModel_of_le {α : Type} (c : ℕ) (ts : List α) (h : ts.length ≤ c) :
    memModel c ts = ts := by
  unfold memModel
  by_cases h1 : ts.length < c
  · rw [if_pos h1]
  · have hn : ts.length = c := by omega
    rw [if_neg h1, hn, Nat.mod_self]
    simp only [Nat.sub_zero, Nat.sub_self, List.drop_zero]
    rw [List.drop_eq_nil_of_le (by omega), List.take_of_length_le (by omega)]
    simp

lemma pushAll_init_spec {α : Type} (c : ℕ) (hc : 0 < c) (a : ℝ) (ts : List α) :
    ((PER.init α c a).pushAll ts).memory = memModel c ts ∧
    ((PER.init α c a).pushAll ts).pos = ts.length % c ∧
    ((PER.init α c a).pushAll ts).capacity = c := by
  induction ts using List.reverseRecOn with
  | nil =>
    refine ⟨?_, by simp [PER.pushAll, PER.init], rfl⟩
    show ([] : List α) = memModel c []
    unfold memModel
    rw [if_pos (by simpa using hc)]
  | append_singleton ts t ih =>
    obtain ⟨hmem, hpos, hcap⟩ := ih
    rw [pushAll_append]
    have hml := memModel_length c hc ts
    refine ⟨?_, ?_, ?_⟩
    · rw [push_memory, hmem, hpos, hcap, hml]
      by_cases h1 : ts.length < c
      · rw [if_pos (by omega), memModel_of_le c ts (by omega),
          memModel_of_le c (ts ++ [t]) (by simp; omega)]
      · rw [if_neg (by omega)]
        have hcn : c ≤ ts.length := by omega
        set n := ts.length with hn
        set r := n % c with hr
        have hrc : r < c := by rw [hr]; exact Nat.mod_lt _ hc
        have hrn : r ≤ n := by rw [hr]; exact Nat.mod_le n c
        have hLHS : memModel c ts =
            ts.drop (n - r) ++ (ts.drop (n - c)).take (c - r) := by
          unfold memModel
          rw [if_neg (by omega), ← hn, ← hr]
        have hA : (ts.drop (n - r)).length = r := by
          rw [List.length_drop]; omega
        have hB : ((ts.drop (n - c)).take (c - r)).length = c - r := by
          rw [List.length_take, List.length_drop]; omega
        obtain ⟨b, bs, hBcons⟩ :=
          List.exists_cons_of_ne_nil
            (l := (ts.drop (n - c)).take (c - r))
            (List.ne_nil_of_length_pos (by omega))
        have hbs : bs = (ts.drop (n + 1 - c)).take (c - r - 1) := by
          have h3 : ((ts.drop (n - c)).take (c - r)).drop 1 = bs := by
            rw [hBcons]
            simp
          have h4 : n - c + 1 = n + 1 - c := by omega
          rw [← h3, List.drop_take, List.drop_drop, h4]
        by_cases h2 : r + 1 < c
        · have hr1 : (n + 1) % c = r + 1 := by
            rw [← Nat.mod_add_mod, ← hr]
            exact Nat.mod_eq_of_lt h2
          have hRHS : memModel c (ts ++ [t]) =
              ts.drop (n - r) ++ ([t] ++ (ts.drop (n + 1 - c)).take (c - r - 1)) := by
            unfold memModel
            rw [if_neg (by simp only [List.length_append, List.length_singleton]; omega)]
            simp only [List.length_append, List.length_singleton]
            rw [← hn, hr1]
            have e1 : n + 1 - (r + 1) = n - r := by omega
            have e2 : c - (r + 1) = c - r - 1 := by omega
            rw [e1, e2, List.drop_append_of_le_length (by omega),
              List.drop_append_of_le_length (by omega),
              List.take_append_of_le_length (by rw [List.length_drop]; omega)]
            exact List.append_assoc _ _ _
          rw [hLHS, hBcons, set_append_eq _ _ r t hA, hRHS, hbs]
          rfl
        · have h2' : r + 1 = c := by omega
          have hr1 : (n + 1) % c = 0 := by
            rw [← Nat.mod_add_mod, ← hr, h2']
            exact Nat.mod_self c
          have hRHS : memModel c (ts ++ [t]) = ts.drop (n + 1 - c) ++ [t] := by
            unfold memModel
            rw [if_neg (by simp only [List.length_append, List.length_singleton]; omega)]
            simp only [List.length_append, List.length_singleton]
            rw [← hn, hr1]
            simp only [Nat.sub_zero]
            rw [List.drop_eq_nil_of_le
                (by simp only [List.length_append, List.length_singleton]; omega),
              List.drop_append_of_le_length (by omega),
              List.take_of_length_le (by simp; omega)]
            simp
          have hbs0 : bs = [] := by
            rw [hbs, show c - r - 1 = 0 by omega]
            rfl
          have e3 : n - r = n + 1 - c := by omega
          rw [hLHS, hBcons, set_append_eq _ _ r t hA, hRHS, hbs0, e3]
          rfl
    · rw [push_pos_eq, hpos, hcap, Nat.mod_add_mod]
      simp
    · rw [push_capacity]
      exact hcap

/-- C1: for every sequence of pushes into a fresh buffer of capacity
`c > 0`: after `n ≤ c` pushes the length is `n` and the memory holds the
pushes in order; after `n ≥ c` pushes the length is `c` and the stored
records are exactly the most recent `c` pushes (a rotation of the last
`c`, with the oldest overwritten first at the write cursor), and the
write cursor `pos = n % c` always stays in `[0, c)`. -/
theorem push_circular_fifo {α : Type} (c : ℕ) (a : ℝ) (ts : List α) (hc : 0 < c) :
    ((PER.init α c a).pushAll ts).pos = ts.length % c ∧
    ((PER.init α c a).pushAll ts).pos < c ∧
    ((PER.init α c a).pushAll ts).len = min ts.length c ∧
    (ts.length ≤ c → ((PER.init α c a).pushAll ts).memory = ts) ∧
    (c ≤ ts.length →
      ((PER.init α c a).pushAll ts).memory =
        ts.drop (ts.length - ts.length % c) ++
          (ts.drop (ts.length - c)).take (c - ts.length % c) ∧
      ((PER.init α c a).pushAll ts).memory.Perm (ts.drop (ts.length - c))) := by
  obtain ⟨hmem, hpos, hcap⟩ := pushAll_init_spec c hc a ts
  refine ⟨hpos, ?_, ?_, ?_, ?_⟩
  · rw [hpos]
    exact Nat.mod_lt _ hc
  · show ((PER.init α c a).pushAll ts).memory.length = _
    rw [hmem]
    exact memModel_length c hc ts
  · intro h
    rw [hmem]
    exact memModel_of_le c ts h
  · intro h
    have hform : ((PER.init α c a).pushAll ts).memory =
        ts.drop (ts.length - ts.length % c) ++
          (ts.drop (ts.length - c)).take (c - ts.length % c) := by
      rw [hmem]
      unfold memModel
      rw [if_neg (by omega)]
    refine ⟨hform, ?_⟩
    rw [hform]
    have hD : ts.drop (ts.length - ts.length % c) =
        (ts.drop (ts.length - c)).drop (c - ts.length % c) := by
      rw [List.drop_drop]
      congr 1
      have h1 := Nat.mod_le ts.length c
      have h2 := Nat.mod_lt ts.length hc
      omega
    rw [hD]
    have hsplit : (ts.drop (ts.length - c)).take (c - ts.length % c) ++
        (ts.drop (ts.length - c)).drop (c - ts.length % c) =
          ts.drop (ts.length - c) := List.take_append_drop _ _
    exact List.Perm.trans List.perm_append_comm
      (by rw [hsplit])

/-- Witness for C1: capacity 3, five pushes `[0,1,2,3,4]`; the buffer
holds `[3,4,2]` (markers 2,3,4 with the oldest overwritten first) and
the cursor is at `5 % 3 = 2`. -/
theorem push_circular_fifo_witness :
    ((PER.init ℕ 3 0).pushAll [0, 1, 2, 3, 4]).memory = [3, 4, 2] ∧
    ((PER.init ℕ 3 0).pushAll [0, 1, 2, 3, 4]).pos = 2 := by
  have h := push_circular_fifo 3 0 [0, 1, 2, 3, 4] (by decide)
  exact ⟨((h.2.2.2.2 (by decide)).1).trans (by decide), h.1.trans (by decide)⟩

lemma zip_take_length {γ δ : Type} :
    ∀ (l1 : List γ) (l2 : List δ), l1.zip l2 = (l1.take l2.length).zip l2 := by
  intro l1
  induction l1 with
  | nil => intro l2; simp
  | cons x xs ih =>
    intro l2
    cases l2 with
    | nil => rfl
    | cons y ys => simpa using ih ys

lemma foldl_set_getD_not_mem (pairs : List (ℕ × List ℚ)) (l : List ℚ) (j : ℕ)
    (h : ∀ ip ∈ pairs, ip.1 ≠ j) :
    (pairs.foldl (fun acc ip => acc.set ip.1 (ip.2.headD 0)) l).getD j 0 =
      l.getD j 0 := by
  induction pairs generalizing l with
  | nil => rfl
  | cons p rest ih =>
    rw [List.foldl_cons, ih _ (fun ip hip => h ip (List.mem_cons_of_mem p hip)),
      getD_set_ne _ _ _ _ _ (h p (List.mem_cons_self p rest))]

/-- C6 counterexample: `update_priorities` called with two indices but a
single priority payload writes only the first pair and returns a normal
state (slot 1 keeps its old value `9`); it does not fail. -/
theorem update_priorities_mismatch_counterexample :
    ((PER.mk (0:ℝ) 2 [(), ()] 0 [7, 9]).update_priorities [0, 1]
      [[5]]).priorities = [5, 9] := by
  decide

/-- C6 amended: with fewer priorities than indices, `update_priorities`
behaves exactly as if the index list were silently truncated to the
length of the priority list, and every slot not named by the truncated
index list keeps its previous priority; no failure is signalled. -/
theorem update_priorities_truncates {α : Type} (st : PER α) (idxs : List ℕ)
    (ps : List (List ℚ)) (h : ps.length < idxs.length) :
    st.update_priorities idxs ps =
      st.update_priorities (idxs.take ps.length) ps ∧
    ∀ j : ℕ, j ∉ idxs.take ps.length →
      (st.update_priorities idxs ps).priorities.getD j 0 =
        st.priorities.getD j 0 := by
  constructor
  · unfold PER.update_priorities
    rw [← zip_take_length]
  · intro j hj
    show ((idxs.zip ps).foldl _ st.priorities).getD j 0 = _
    rw [zip_take_length idxs ps]
    refine foldl_set_getD_not_mem _ _ _ ?_
    intro ip hip hipj
    exact hj (hipj ▸ (List.of_mem_zip hip).1)

/-- Witness for C6 amended, on the concrete mismatched call. -/
theorem update_priorities_truncates_witness :
    ((PER.mk (0:ℝ) 2 [(), ()] 0 [7, 9]).update_priorities [0, 1]
        [[5]]).priorities.getD 1 0 =
      (PER.mk (0:ℝ) 2 [(), ()] 0 [7, 9]).priorities.getD 1 0 :=
  (update_priorities_truncates (PER.mk (0:ℝ) 2 [(), ()] 0 [7, 9]) [0, 1] [[5]]
    (by decide)).2 1 (by decide)

/-- Length of the meaningful region of the priority store: the whole
store when the buffer is full, else the prefix up to the cursor. -/
def mlen {α : Type} (st : PER α) : ℕ :=
  if st.memory.length = st.capacity then st.priorities.length else st.pos

/-- Every priority in the meaningful region of the store is strictly
positive. -/
def PosPrios {α : Type} (st : PER α) : Prop :=
  ∀ i, i < mlen st → 0 < st.priorities.getD i 0

lemma posPrios_mem {α : Type} (st : PER α) (hwf : st.WF) (hp : PosPrios st) :
    ∀ p ∈ meaningfulPrios st, 0 < p := by
  obtain ⟨hc, hplen, hmlen, hpos, hcur⟩ := hwf
  intro p hpmem
  unfold meaningfulPrios at hpmem
  by_cases hfull : st.memory.length = st.capacity
  · rw [if_pos hfull] at hpmem
    obtain ⟨i, hi, hip⟩ := List.mem_iff_getElem.mp hpmem
    have := hp i (by unfold mlen; rw [if_pos hfull]; exact hi)
    rwa [List.getD_eq_getElem _ _ hi, hip] at this
  · rw [if_neg hfull] at hpmem
    obtain ⟨i, hi, hip⟩ := List.mem_iff_getElem.mp hpmem
    have hil : i < st.priorities.length := by
      have := List.length_take st.pos st.priorities
      omega
    have hipos : i < st.pos := by
      have := List.length_take st.pos st.priorities
      omega
    have hval := hp i (by unfold mlen; rw [if_neg hfull]; exact hipos)
    rw [List.getElem_take] at hip
    rwa [List.getD_eq_getElem _ _ hil, hip] at hval

lemma push_priorities {α : Type} (st : PER α) (t : α) :
    (st.push t).priorities = st.priorities.set st.pos
      (if st.memory.isEmpty then 1 else npmax 0 st.priorities) := rfl

lemma getD_set_oob {α : Type} (l : List α) (i : ℕ) (v : α)
    (h : l.length ≤ i) : l.set i v = l := by
  induction l generalizing i with
  | nil => rfl
  | cons x xs ih =>
    cases i with
    | zero => simp at h
    | succ j =>
      show x :: xs.set j v = x :: xs
      rw [ih j (by simpa using h)]

lemma foldl_set_length (pairs : List (ℕ × List ℚ)) (l : List ℚ) :
    (pairs.foldl (fun acc ip => acc.set ip.1 (ip.2.headD 0)) l).length =
      l.length := by
  induction pairs generalizing l with
  | nil => rfl
  | cons p rest ih =>
    rw [List.foldl_cons, ih]
    simp

lemma foldl_set_getD_pos (pairs : List (ℕ × List ℚ)) (l : List ℚ) (m : ℕ)
    (hl : ∀ i, i < m → 0 < l.getD i 0)
    (hv : ∀ ip ∈ pairs, 0 < ip.2.headD 0) :
    ∀ i, i < m →
      0 < (pairs.foldl (fun acc ip => acc.set ip.1 (ip.2.headD 0)) l).getD i 0 := by
  induction pairs generalizing l with
  | nil => exact hl
  | cons p rest ih =>
    intro i him
    rw [List.foldl_cons]
    refine ih (l.set p.1 (p.2.headD 0)) ?_
      (fun ip hip => hv ip (List.mem_cons_of_mem p hip)) i him
    intro j hjm
    by_cases hj : p.1 = j
    · by_cases hjl : j < l.length
      · rw [hj, getD_set_eq _ _ _ _ hjl]
        exact hv p (List.mem_cons_self p rest)
      · rw [getD_set_oob l p.1 _ (by omega)]
        exact hl j hjm
    · rw [getD_set_ne _ _ _ _ _ hj]
      exact hl j hjm

lemma wf_update {α : Type} (st : PER α) (idxs : List ℕ) (ps : List (List ℚ))
    (hwf : st.WF) : (st.update_priorities idxs ps).WF := by
  obtain ⟨hc, hplen, hmlen, hpos, hcur⟩ := hwf
  refine ⟨hc, ?_, hmlen, hpos, hcur⟩
  show ((idxs.zip ps).foldl _ st.priorities).length = st.capacity
  rw [foldl_set_length, hplen]

lemma posPrios_push {α : Type} (st : PER α) (t : α) (hwf : st.WF)
    (hp : PosPrios st) : PosPrios (st.push t) := by
  obtain ⟨hc, hplen, hmlen, hpos, hcur⟩ := hwf
  have hmaxpos :
      0 < (if st.memory.isEmpty then 1 else npmax 0 st.priorities : ℚ) := by
    by_cases hemp : st.memory.isEmpty
    · rw [if_pos hemp]
      norm_num
    · rw [if_neg hemp]
      have hmem0 : st.memory ≠ [] := by
        intro hnil
        rw [hnil] at hemp
        exact hemp rfl
      have hml1 : 1 ≤ mlen st := by
        unfold mlen
        by_cases hfull : st.memory.length = st.capacity
        · rw [if_pos hfull]
          omega
        · rw [if_neg hfull]
          have hc2 := hcur (by omega)
          have hlen0 : 0 < st.memory.length := List.length_pos.mpr hmem0
          omega
      have h0 := hp 0 (by omega)
      have hpne : st.priorities ≠ [] := by
        intro hnil
        rw [hnil] at hplen
        simp at hplen
        omega
      have hmem00 : st.priorities.getD 0 0 ∈ st.priorities := by
        have hl : 0 < st.priorities.length := List.length_pos.mpr hpne
        rw [List.getD_eq_getElem _ _ hl]
        exact List.getElem_mem hl
      exact lt_of_lt_of_le h0 (le_npmax_of_mem 0 _ _ hmem00)
  intro i hi
  by_cases hieq : i = st.pos
  · rw [hieq, push_priorities, getD_set_eq _ _ _ _ (by omega)]
    exact hmaxpos
  · rw [push_priorities, getD_set_ne _ _ _ _ _ (fun hh => hieq hh.symm)]
    apply hp
    by_cases hlt : st.memory.length < st.capacity
    · have hp2 := hcur hlt
      by_cases h2 : st.memory.length + 1 = st.capacity
      · have hm1 : (st.push t).memory.length = st.memory.length + 1 := by
          rw [push_memory, if_pos hlt]
          simp
        have hmp : mlen (st.push t) = st.priorities.length := by
          unfold mlen
          rw [push_capacity, hm1, if_pos (by omega), push_priorities]
          simp
        rw [hmp] at hi
        unfold mlen
        rw [if_neg (by omega)]
        omega
      · have hm1 : (st.push t).memory.length = st.memory.length + 1 := by
          rw [push_memory, if_pos hlt]
          simp
        have hmp : mlen (st.push t) = (st.pos + 1) % st.capacity := by
          unfold mlen
          rw [push_capacity, hm1, if_neg (by omega)]
          rfl
        rw [hmp, Nat.mod_eq_of_lt (by omega)] at hi
        unfold mlen
        rw [if_neg (by omega)]
        omega
    · have hfull : st.memory.length = st.capacity := by omega
      have hm1 : (st.push t).memory.length = st.memory.length := by
        rw [push_memory, if_neg hlt]
        simp
      have hmp : mlen (st.push t) = st.priorities.length := by
        unfold mlen
        rw [push_capacity, hm1, if_pos hfull, push_priorities]
        simp
      rw [hmp] at hi
      unfold mlen
      rw [if_pos hfull]
      exact hi

lemma posPrios_update {α : Type} (st : PER α) (idxs : List ℕ)
    (ps : List (List ℚ)) (hps : ∀ p ∈ ps, 0 < p.headD 0)
    (hp : PosPrios st) : PosPrios (st.update_priorities idxs ps) := by
  have hml : mlen (st.update_priorities idxs ps) = mlen st := by
    unfold mlen PER.update_priorities
    simp only [foldl_set_length]
  intro i hi
  rw [hml] at hi
  exact foldl_set_getD_pos _ _ (mlen st) hp
    (fun ip hip => hps ip.2 (List.of_mem_zip hip).2) i hi

/-- One buffer operation of the training protocol: a `push` of a
transition, or an `update_priorities` call. -/
inductive Op (α : Type) where
  | push : α → Op α
  | update : List ℕ → List (List ℚ) → Op α

def applyOp {α : Type} (st : PER α) : Op α → PER α
  | Op.push t => st.push t
  | Op.update idxs ps => st.update_priorities idxs ps

def runOps {α : Type} (st : PER α) (ops : List (Op α)) : PER α :=
  ops.foldl applyOp st

/-- Unnormalized sampling weights of `PER.sample`:
`probs = prios ** self.prob_alpha`, elementwise over the slice it
draws from. -/
noncomputable def rawProbs {α : Type} (st : PER α) : List ℝ :=
  (meaningfulPrios st).map (fun p : ℚ => (p : ℝ) ^ st.prob_alpha)

lemma runOps_wf_pos {α : Type} (ops : List (Op α)) (st : PER α) (hwf : st.WF)
    (hp : PosPrios st)
    (hops : ∀ op ∈ ops, ∀ idxs ps, op = Op.update idxs ps →
      ∀ p ∈ ps, 0 < p.headD 0) :
    (runOps st ops).WF ∧ PosPrios (runOps st ops) := by
  induction ops generalizing st with
  | nil => exact ⟨hwf, hp⟩
  | cons op rest ih =>
    have hrest : ∀ op2 ∈ rest, ∀ idxs ps, op2 = Op.update idxs ps →
        ∀ p ∈ ps, 0 < p.headD 0 :=
      fun op2 h2 => hops op2 (List.mem_cons_of_mem op h2)
    cases op with
    | push t =>
      exact ih (st.push t) (wf_push st t hwf) (posPrios_push st t hwf hp) hrest
    | update idxs ps =>
      have hvals : ∀ p ∈ ps, 0 < p.headD 0 :=
        hops _ (List.mem_cons_self _ _) idxs ps rfl
      exact ih (st.update_priorities idxs ps) (wf_update st idxs ps hwf)
        (posPrios_update st idxs ps hvals hp) hrest

/-- C7: under the push/update protocol (pushes seed priorities from the
running maximum or `1.0`; every `update_priorities` payload row has a
strictly positive first element, as `loss + 1e-5` always is), every
priority in the meaningful region of the store stays strictly positive,
and whenever the buffer is nonempty the normalizer of the sampling
distribution (the sum of `prios ** alpha`) is strictly positive, so the
categorical distribution of `sample` is well-defined. -/
theorem priorities_stay_positive {α : Type} (c : ℕ) (hc : 0 < c) (a : ℝ)
    (ops : List (Op α))
    (hops : ∀ op ∈ ops, ∀ idxs ps, op = Op.update idxs ps →
      ∀ p ∈ ps, 0 < p.headD 0) :
    (∀ p ∈ meaningfulPrios (runOps (PER.init α c a) ops), 0 < p) ∧
    (0 < (runOps (PER.init α c a) ops).memory.length →
      0 < (rawProbs (runOps (PER.init α c a) ops)).sum) := by
  have hinit : PosPrios (PER.init α c a) := by
    intro i hi
    unfold mlen at hi
    rw [if_neg (by simp [PER.init]; omega)] at hi
    simp [PER.init] at hi
  obtain ⟨hwf, hp⟩ := runOps_wf_pos ops (PER.init α c a) (wf_init α c a hc)
    hinit hops
  have hmempos := posPrios_mem _ hwf hp
  refine ⟨hmempos, ?_⟩
  intro hlen
  obtain ⟨hc2, hplen, hmlen2, hpos, hcur⟩ := hwf
  have hne : meaningfulPrios (runOps (PER.init α c a) ops) ≠ [] := by
    unfold meaningfulPrios
    by_cases hfull : (runOps (PER.init α c a) ops).memory.length =
        (runOps (PER.init α c a) ops).capacity
    · rw [if_pos hfull]
      intro hnil
      rw [hnil] at hplen
      simp at hplen
      omega
    · rw [if_neg hfull]
      intro hnil
      rw [List.take_eq_nil_iff] at hnil
      rcases hnil with h0 | h0
      · have := hcur (by omega)
        omega
      · rw [h0] at hplen
        simp at hplen
        omega
  unfold rawProbs
  have hmapne : (meaningfulPrios (runOps (PER.init α c a) ops)).map
      (fun p : ℚ => (p : ℝ) ^ (runOps (PER.init α c a) ops).prob_alpha) ≠ [] := by
    intro hnil
    rw [List.map_eq_nil_iff] at hnil
    exact hne hnil
  refine List.sum_pos _ ?_ hmapne
  intro x hx
  obtain ⟨p, hpmem, hfp⟩ := List.mem_map.mp hx
  rw [← hfp]
  exact Real.rpow_pos_of_pos (by exact_mod_cast hmempos p hpmem) _

/-- Witness for C7: capacity 1, one push then one positive update; the
slot's priority is positive. -/
theorem priorities_stay_positive_witness :
    0 < (runOps (PER.init Unit 1 0)
      [Op.push (), Op.update [0] [[3]]]).priorities.getD 0 0 := by
  have hops : ∀ op ∈ [Op.push (), Op.update [0] [[3]]],
      ∀ idxs ps, op = Op.update idxs ps → ∀ p ∈ ps, 0 < p.headD 0 := by
    intro op hop idxs ps heq p hpmem
    rcases List.mem_cons.mp hop with rfl | hop2
    · simp at heq
    · rcases List.mem_cons.mp hop2 with rfl | hop3
      · cases heq
        rcases List.mem_cons.mp hpmem with rfl | h0
        · decide
        · cases h0
      · cases hop3
  have h := (priorities_stay_positive 1 (by decide) 0
    [Op.push (), Op.update [0] [[3]]] hops).1
  apply h
  decide

/-- Normalized sampling probabilities of `PER.sample`:
`probs = prios ** alpha; probs /= probs.sum()`. -/
noncomputable def sampleProbs {α : Type} (st : PER α) : List ℝ :=
  (rawProbs st).map (fun x => x / (rawProbs st).sum)

/-- Unnormalized importance weights of `PER.sample`:
`weights = (total * probs[indices]) ** (-beta)` with
`total = len(self.memory)`. -/
noncomputable def rawWeights {α : Type} (st : PER α) (beta : ℝ)
    (draw : List ℕ) : List ℝ :=
  draw.map (fun i =>
    ((st.memory.length : ℝ) * (sampleProbs st).getD i 0) ^ (-beta))

/-- Importance weights of `PER.sample` after `weights /= weights.max()`. -/
noncomputable def sampleWeights {α : Type} (st : PER α) (beta : ℝ)
    (draw : List ℕ) : List ℝ :=
  (rawWeights st beta draw).map
    (fun w => w / npmax 0 (rawWeights st beta draw))

/-- `PER.sample`: the returned `(indices, weights)` pair.  The drawn
index list (the outcome of
`np.random.choice(len(self.memory), BATCH_SIZE, p=probs)`) is passed as
the parameter `draw`; the gathering of the transitions into columnar
batches is omitted since the claims do not concern it. -/
noncomputable def PER.sample {α : Type} (st : PER α) (beta : ℝ)
    (draw : List ℕ) : List ℕ × List ℝ :=
  (draw, sampleWeights st beta draw)

lemma meaningfulPrios_length {α : Type} (st : PER α) (hwf : st.WF) :
    (meaningfulPrios st).length = st.memory.length := by
  obtain ⟨hc, hplen, hmlen, hpos, hcur⟩ := hwf
  unfold meaningfulPrios
  by_cases hfull : st.memory.length = st.capacity
  · rw [if_pos hfull]
    omega
  · rw [if_neg hfull, List.length_take]
    have := hcur (by omega)
    omega

lemma rawProbs_nonneg {α : Type} (st : PER α)
    (hnn : ∀ p ∈ st.priorities, 0 ≤ p) :
    ∀ x ∈ rawProbs st, 0 ≤ x := by
  intro x hx
  obtain ⟨p, hpmem, hfp⟩ := List.mem_map.mp hx
  rw [← hfp]
  refine Real.rpow_nonneg ?_ _
  have hsub : p ∈ st.priorities := by
    unfold meaningfulPrios at hpmem
    by_cases hfull : st.memory.length = st.capacity
    · rwa [if_pos hfull] at hpmem
    · rw [if_neg hfull] at hpmem
      exact List.take_subset _ _ hpmem
  exact_mod_cast hnn p hsub

lemma rawProbs_getD {α : Type} (st : PER α) (i : ℕ)
    (hi : i < (meaningfulPrios st).length) :
    (rawProbs st).getD i 0 =
      ((meaningfulPrios st).getD i 0 : ℝ) ^ st.prob_alpha := by
  unfold rawProbs
  rw [List.getD_eq_getElem _ _ (by simpa using hi), List.getElem_map,
    List.getD_eq_getElem _ _ hi]

lemma sampleProbs_getD_div {α : Type} (st : PER α) (i : ℕ)
    (hi : i < (meaningfulPrios st).length) :
    (sampleProbs st).getD i 0 =
      (rawProbs st).getD i 0 / (rawProbs st).sum := by
  have hrl : i < (rawProbs st).length := by
    unfold rawProbs
    simpa using hi
  unfold sampleProbs
  rw [List.getD_eq_getElem _ _ (by simpa using hrl), List.getElem_map,
    ← List.getD_eq_getElem _ _ hrl]

lemma sampleProbs_getD_pos {α : Type} (st : PER α) (hwf : st.WF)
    (hnn : ∀ p ∈ st.priorities, 0 ≤ p) (i : ℕ)
    (hi : i < st.memory.length)
    (hpos : 0 < (meaningfulPrios st).getD i 0) :
    0 < (sampleProbs st).getD i 0 := by
  have hlen := meaningfulPrios_length st hwf
  have hi2 : i < (meaningfulPrios st).length := by omega
  have hraw := rawProbs_getD st i hi2
  have hrawpos : 0 < (rawProbs st).getD i 0 := by
    rw [hraw]
    exact Real.rpow_pos_of_pos (by exact_mod_cast hpos) _
  have hrawlen : i < (rawProbs st).length := by
    unfold rawProbs
    simpa using hi2
  have hmem : (rawProbs st).getD i 0 ∈ rawProbs st := by
    rw [List.getD_eq_getElem _ _ hrawlen]
    exact List.getElem_mem hrawlen
  have hsum : (rawProbs st).getD i 0 ≤ (rawProbs st).sum :=
    List.single_le_sum (rawProbs_nonneg st hnn) _ hmem
  rw [sampleProbs_getD_div st i hi2]
  exact div_pos hrawpos (lt_of_lt_of_le hrawpos hsum)

/-- C3: whenever `np.random.choice` returns `BATCH_SIZE` indices, each
within `[0, len(memory))` and each naming a slot of positive priority
(choice never draws zero-probability indices), `sample` returns exactly
`BATCH_SIZE` indices in `[0, len(buffer))` and `BATCH_SIZE` importance
weights, every weight strictly positive and at most `1.0`, with the
maximum weight in the batch exactly `1.0`. -/
theorem sample_weights_unit_interval {α : Type} (st : PER α) (beta : ℝ)
    (draw : List ℕ) (hwf : st.WF) (hdraw : draw.length = BATCH_SIZE)
    (hlt : ∀ i ∈ draw, i < st.memory.length)
    (hnn : ∀ p ∈ st.priorities, 0 ≤ p)
    (hpos : ∀ i ∈ draw, 0 < (meaningfulPrios st).getD i 0) :
    (st.sample beta draw).1.length = BATCH_SIZE ∧
    (∀ i ∈ (st.sample beta draw).1, i < st.len) ∧
    (st.sample beta draw).2.length = BATCH_SIZE ∧
    (∀ w ∈ (st.sample beta draw).2, 0 < w ∧ w ≤ 1) ∧
    npmax 0 (st.sample beta draw).2 = 1 := by
  have hrawpos : ∀ w ∈ rawWeights st beta draw, 0 < w := by
    intro w hw
    obtain ⟨i, hidraw, hfw⟩ := List.mem_map.mp hw
    rw [← hfw]
    refine Real.rpow_pos_of_pos ?_ _
    refine mul_pos ?_
      (sampleProbs_getD_pos st hwf hnn i (hlt i hidraw) (hpos i hidraw))
    have h0 : 0 < st.memory.length := by
      have := hlt i hidraw
      omega
    exact_mod_cast h0
  have hrwne : rawWeights st beta draw ≠ [] := by
    have hdne : draw ≠ [] := by
      intro hnil
      rw [hnil] at hdraw
      simp [BATCH_SIZE] at hdraw
    intro hnil
    unfold rawWeights at hnil
    rw [List.map_eq_nil_iff] at hnil
    exact hdne hnil
  have hMmem : npmax 0 (rawWeights st beta draw) ∈ rawWeights st beta draw :=
    npmax_mem 0 _ hrwne
  have hMpos : 0 < npmax 0 (rawWeights st beta draw) := hrawpos _ hMmem
  have hle : ∀ w ∈ rawWeights st beta draw, w ≤ npmax 0 (rawWeights st beta draw) :=
    fun w hw => le_npmax_of_mem 0 _ w hw
  refine ⟨hdraw, fun i hi2 => hlt i hi2, ?_, ?_, ?_⟩
  · show (sampleWeights st beta draw).length = BATCH_SIZE
    unfold sampleWeights rawWeights
    simpa using hdraw
  · intro w hw
    have hw2 : w ∈ sampleWeights st beta draw := hw
    unfold sampleWeights at hw2
    obtain ⟨w0, hw0mem, hfw⟩ := List.mem_map.mp hw2
    rw [← hfw]
    exact ⟨div_pos (hrawpos w0 hw0mem) hMpos,
      (div_le_one hMpos).mpr (hle w0 hw0mem)⟩
  · show npmax 0 (sampleWeights st beta draw) = 1
    refine npmax_eq_of_mem_of_le 0 _ 1 ?_ ?_
    · unfold sampleWeights
      refine List.mem_map.mpr ⟨npmax 0 (rawWeights st beta draw), hMmem, ?_⟩
      exact div_self (ne_of_gt hMpos)
    · intro b hb
      unfold sampleWeights at hb
      obtain ⟨w0, hw0mem, hfw⟩ := List.mem_map.mp hb
      rw [← hfw]
      exact (div_le_one hMpos).mpr (hle w0 hw0mem)

/-- Witness for C3 on a full buffer of capacity 2 with priorities
`[1, 2]` and the draw that picks slot 0 thirty-two times. -/
theorem sample_weights_unit_interval_witness :
    ((PER.mk (0:ℝ) 2 [(), ()] 0 [1, 2]).sample 1
      (List.replicate 32 0)).1.length = BATCH_SIZE ∧
    npmax 0 ((PER.mk (0:ℝ) 2 [(), ()] 0 [1, 2]).sample 1
      (List.replicate 32 0)).2 = 1 := by
  have h := sample_weights_unit_interval (PER.mk (0:ℝ) 2 [(), ()] 0 [1, 2]) 1
    (List.replicate 32 0) (by decide) (by decide) (by decide) (by decide)
    (by decide)
  exact ⟨h.1, h.2.2.2.2⟩

lemma sum_map_div (l : List ℝ) (s : ℝ) :
    (l.map (fun x => x / s)).sum = l.sum / s := by
  induction l with
  | nil => simp
  | cons x xs ih => simp [ih, add_div]

lemma map_rpow_zero (l : List ℚ) :
    l.map (fun p : ℚ => (p : ℝ) ^ (0:ℝ)) = List.replicate l.length 1 := by
  induction l with
  | nil => rfl
  | cons x xs ih => simp [Real.rpow_zero, ih, List.replicate_succ]

/-- C4: `sample` draws from the categorical distribution obtained by
raising each meaningful priority to `alpha` and normalizing to sum 1:
the probability vector handed to `np.random.choice` sums to `1`, its
`i`-th entry is `prios[i] ** alpha / sum(prios ** alpha)`, and with
`alpha = 0` the vector is uniform over the stored slots. -/
theorem sample_categorical_alpha {α : Type} (st : PER α)
    (hnn : ∀ p ∈ st.priorities, 0 ≤ p)
    (hex : ∃ p ∈ meaningfulPrios st, 0 < p) :
    (sampleProbs st).sum = 1 ∧
    (∀ i, i < (meaningfulPrios st).length →
      (sampleProbs st).getD i 0 =
        ((meaningfulPrios st).getD i 0 : ℝ) ^ st.prob_alpha /
          (rawProbs st).sum) ∧
    (st.prob_alpha = 0 →
      sampleProbs st =
        List.replicate (meaningfulPrios st).length
          (((meaningfulPrios st).length : ℝ))⁻¹) := by
  obtain ⟨p, hpmem, hppos⟩ := hex
  have hpraw : ((p : ℝ) ^ st.prob_alpha) ∈ rawProbs st :=
    List.mem_map.mpr ⟨p, hpmem, rfl⟩
  have hprawpos : 0 < (p : ℝ) ^ st.prob_alpha :=
    Real.rpow_pos_of_pos (by exact_mod_cast hppos) _
  have hsumpos : 0 < (rawProbs st).sum :=
    lt_of_lt_of_le hprawpos
      (List.single_le_sum (rawProbs_nonneg st hnn) _ hpraw)
  refine ⟨?_, ?_, ?_⟩
  · unfold sampleProbs
    rw [sum_map_div]
    exact div_self (ne_of_gt hsumpos)
  · intro i hi
    rw [sampleProbs_getD_div st i hi, rawProbs_getD st i hi]
  · intro h0
    have hraw : rawProbs st =
        List.replicate (meaningfulPrios st).length (1:ℝ) := by
      unfold rawProbs
      rw [h0]
      exact map_rpow_zero _
    unfold sampleProbs
    rw [hraw, List.sum_replicate, List.map_replicate]
    congr 1
    simp [nsmul_eq_mul, one_div]

/-- Witness for C4: a full buffer with `prob_alpha = 0` and priorities
`[1, 3]` yields the uniform probability vector. -/
theorem sample_categorical_alpha_witness :
    sampleProbs (PER.mk (0:ℝ) 2 [(), ()] 0 [1, 3]) =
      List.replicate
        (meaningfulPrios (PER.mk (0:ℝ) 2 [(), ()] 0 [1, 3])).length
        (((meaningfulPrios (PER.mk (0:ℝ) 2 [(), ()] 0 [1, 3])).length : ℝ))⁻¹ :=
  (sample_categorical_alpha (PER.mk (0:ℝ) 2 [(), ()] 0 [1, 3])
    (by decide) (by decide)).2.2 rfl

/-- The mask of `optimize_model`:
`tuple(map(lambda s: s is not None, next_state))`. -/
def nonFinalMask {σ : Type} (next_state : List (Option σ)) : List Bool :=
  next_state.map (fun s => s.isSome)

/-- The list comprehension `[s for s in next_state if s is not None]`
whose `torch.cat` is fed to the target network. -/
def nonFinalNextStates {σ : Type} (next_state : List (Option σ)) :
    List (Option σ) :=
  next_state.filter (fun s => s.isSome)

/-- The masked scatter `next_q_values[non_final_mask] = vals` over the
zero tensor `torch.zeros(BATCH_SIZE)`: positions where the mask is true
receive the values in order, all others stay `0`.  (The value-starved
third case cannot arise in `optimize_model`, where the number of values
equals the number of true mask entries.) -/
def maskedScatter : List Bool → List ℚ → List ℚ
  | [], _ => []
  | true :: ms, v :: vs => v :: maskedScatter ms vs
  | true :: ms, [] => 0 :: maskedScatter ms []
  | false :: ms, vs => 0 :: maskedScatter ms vs

/-- `next_q_values` of `optimize_model`, with
`target_net(non_final_next_states).max(1)[0]` scattered at the
non-terminal positions; `tmax s` stands for `target_net(s).max(1)[0]`,
the maximum action value of the target network on one next state. -/
def nextQValues {σ : Type} (tmax : Option σ → ℚ)
    (next_state : List (Option σ)) : List ℚ :=
  maskedScatter (nonFinalMask next_state)
    ((nonFinalNextStates next_state).map tmax)

/-- `expected_q_value = (next_q_values * GAMMA) + reward`. -/
def expectedQValues {σ : Type} (tmax : Option σ → ℚ)
    (next_state : List (Option σ)) (reward : List ℚ) : List ℚ :=
  List.zipWith (fun q r => q * GAMMA + r) (nextQValues tmax next_state) reward

/-- The bootstrap-target block of `optimize_model`, including the
`torch.cat([s for s in next_state if s is not None])`, which raises a
RuntimeError when the list of tensors is empty. -/
def optimizeTargets {σ : Type} (tmax : Option σ → ℚ)
    (next_state : List (Option σ)) (reward : List ℚ) :
    Except String (List ℚ) :=
  match nonFinalNextStates next_state with
  | [] => Except.error "torch.cat: expected a non-empty list of Tensors"
  | _ => Except.ok (expectedQValues tmax next_state reward)

lemma nextQValues_eq_map {σ : Type} (tmax : Option σ → ℚ)
    (next_state : List (Option σ)) :
    nextQValues tmax next_state =
      next_state.map (fun s => if s.isSome then tmax s else 0) := by
  induction next_state with
  | nil => rfl
  | cons s rest ih =>
    cases s with
    | none =>
      show maskedScatter (false :: nonFinalMask rest)
        ((nonFinalNextStates rest).map tmax) = _
      rw [List.map_cons]
      show (0 : ℚ) :: nextQValues tmax rest = _
      rw [ih]
      rfl
    | some x =>
      show maskedScatter (true :: nonFinalMask rest)
        ((some x :: nonFinalNextStates rest).map tmax) = _
      rw [List.map_cons, List.map_cons]
      show tmax (some x) :: nextQValues tmax rest = _
      rw [ih]
      rfl

lemma map_getD {γ δ : Type} (f : γ → δ) (l : List γ) (i : ℕ)
    (hi : i < l.length) (d : γ) (d2 : δ) :
    (l.map f).getD i d2 = f (l.getD i d) := by
  rw [List.getD_eq_getElem _ _ (by simpa using hi), List.getElem_map,
    List.getD_eq_getElem _ _ hi]

lemma zipWith_getD (f : ℚ → ℚ → ℚ) (l1 l2 : List ℚ) (i : ℕ)
    (h1 : i < l1.length) (h2 : i < l2.length) :
    (List.zipWith f l1 l2).getD i 0 = f (l1.getD i 0) (l2.getD i 0) := by
  rw [List.getD_eq_getElem _ _ (by rw [List.length_zipWith]; omega),
    List.getElem_zipWith, List.getD_eq_getElem _ _ h1,
    List.getD_eq_getElem _ _ h2]

lemma expectedQValues_getD {σ : Type} (tmax : Option σ → ℚ)
    (next_state : List (Option σ)) (reward : List ℚ) (i : ℕ)
    (hi : i < next_state.length) (hir : i < reward.length) :
    (expectedQValues tmax next_state reward).getD i 0 =
      (if (next_state.getD i none).isSome then tmax (next_state.getD i none)
        else 0) * GAMMA + reward.getD i 0 := by
  unfold expectedQValues
  rw [zipWith_getD _ _ _ i
    (by rw [nextQValues_eq_map, List.length_map]; omega) hir,
    nextQValues_eq_map,
    map_getD (fun s : Option σ => if s.isSome then tmax s else 0)
      next_state i hi none 0]

/-- C9: whenever the training step's bootstrap block completes (the
sampled batch has a non-terminal transition, so `torch.cat` succeeds),
every terminal row's target equals its reward alone, every non-terminal
row's target equals `reward + GAMMA * tmax(next_state)`, and the target
network is never invoked on the terminal sentinel: `None` is masked out
of the batch it receives. -/
theorem bootstrap_targets_mask {σ : Type} (tmax : Option σ → ℚ)
    (next_state : List (Option σ)) (reward : List ℚ) (eqv : List ℚ)
    (hlen : next_state.length = reward.length)
    (hok : optimizeTargets tmax next_state reward = Except.ok eqv) :
    (∀ i, i < next_state.length → next_state.getD i none = none →
      eqv.getD i 0 = reward.getD i 0) ∧
    (∀ i, i < next_state.length → ∀ s : σ, next_state.getD i none = some s →
      eqv.getD i 0 = reward.getD i 0 + GAMMA * tmax (some s)) ∧
    (none : Option σ) ∉ nonFinalNextStates next_state := by
  have heqv : eqv = expectedQValues tmax next_state reward := by
    unfold optimizeTargets at hok
    rcases hfil : nonFinalNextStates next_state with _ | ⟨s0, rest0⟩
    · rw [hfil] at hok
      cases hok
    · rw [hfil] at hok
      exact (Except.ok.inj hok).symm
  subst heqv
  refine ⟨?_, ?_, ?_⟩
  · intro i hi hnone
    rw [expectedQValues_getD tmax next_state reward i hi (by omega), hnone]
    simp
  · intro i hi s hsome
    rw [expectedQValues_getD tmax next_state reward i hi (by omega), hsome]
    simp only [Option.isSome_some, if_true]
    ring
  · intro hmem
    unfold nonFinalNextStates at hmem
    have hprop := List.mem_filter.mp hmem
    simp at hprop

/-- Witness for C9 on the batch `[some (), none]` with rewards `[1, 2]`
and a constant target value `5`. -/
theorem bootstrap_targets_mask_witness :
    (expectedQValues (fun _ => (5:ℚ)) [some (), none] [1, 2]).getD 1 0 =
      ([1, 2] : List ℚ).getD 1 0 ∧
    (expectedQValues (fun _ => (5:ℚ)) [some (), none] [1, 2]).getD 0 0 =
      ([1, 2] : List ℚ).getD 0 0 + GAMMA * 5 := by
  have h := bootstrap_targets_mask (fun _ => (5:ℚ)) [some (), none] [1, 2]
    (expectedQValues (fun _ => (5:ℚ)) [some (), none] [1, 2]) (by decide) rfl
  exact ⟨h.1 1 (by decide) (by decide), h.2.1 0 (by decide) () (by decide)⟩

/-- C10: on a reachable all-terminal batch (every `next_state` entry is
the sentinel `None`), the training step's
`torch.cat([s for s in next_state if s is not None])` raises instead of
completing with an all-zero bootstrap: the step is not total. -/
theorem allterminal_batch_errors {σ : Type} (tmax : Option σ → ℚ)
    (next_state : List (Option σ)) (reward : List ℚ)
    (hne : next_state ≠ []) (hall : ∀ s ∈ next_state, s = none) :
    optimizeTargets tmax next_state reward =
      Except.error "torch.cat: expected a non-empty list of Tensors" := by
  have hfil : nonFinalNextStates next_state = [] := by
    unfold nonFinalNextStates
    rw [List.filter_eq_nil_iff]
    intro a ha
    rw [hall a ha]
    simp
  unfold optimizeTargets
  rw [hfil]

/-- Witness for C10: a full-batch-size all-terminal draw. -/
theorem allterminal_batch_errors_witness :
    optimizeTargets (fun _ => (0:ℚ))
      (List.replicate BATCH_SIZE (none : Option Unit))
      (List.replicate BATCH_SIZE 0) =
      Except.error "torch.cat: expected a non-empty list of Tensors" :=
  allterminal_batch_errors _ _ _ (by decide) (by decide)

/-- The loss of `optimize_model`:
`(q_value - expected_q_value.unsqueeze(1)).pow(2) * torch.as_tensor(weights)`.
`q_value` has shape `[B, 1]` and the weight tensor shape `[B]`, so the
product broadcasts to a `[B, B]` matrix whose entry `(i, j)` is
`(q_value[i] - expected_q_value[i])^2 * weights[j]`. -/
def lossMatrix (q_value expected_q_value weights : List ℚ) :
    List (List ℚ) :=
  (List.zipWith (fun q e => (q - e) ^ 2) q_value expected_q_value).map
    (fun d2 => weights.map (fun w => d2 * w))

/-- `prios = loss.detach() + 1e-5`, elementwise on the `[B, B]` loss. -/
def priosMatrix (q_value expected_q_value weights : List ℚ) :
    List (List ℚ) :=
  (lossMatrix q_value expected_q_value weights).map
    (fun row => row.map (fun x => x + 1/100000))

/-- C5 counterexample: with unit TD error on sample 0 and first weight
`1/2`, the priority handed to `update_priorities` for sampled
transition 0 (`prio[0]` of row 0) is `1/2 + 1e-5`, not the un-weighted
per-sample squared TD error plus `1e-5`. -/
theorem priority_unweighted_counterexample :
    ((priosMatrix (List.replicate 32 1) (List.replicate 32 0)
        (((1:ℚ)/2) :: List.replicate 31 1)).getD 0 []).headD 0 ≠
      ((List.replicate 32 (1:ℚ)).getD 0 0 -
        (List.replicate 32 (0:ℚ)).getD 0 0) ^ 2 + 1/100000 := by
  have hz : (0:ℕ) < (List.zipWith (fun q e : ℚ => (q - e) ^ 2)
      (List.replicate 32 (1:ℚ)) (List.replicate 32 (0:ℚ))).length := by
    rw [List.length_zipWith]
    norm_num
  unfold priosMatrix
  rw [map_getD _ _ 0 (by unfold lossMatrix; simpa using hz)
    ([] : List ℚ) ([] : List ℚ)]
  unfold lossMatrix
  rw [map_getD _ _ 0 hz (0:ℚ) ([] : List ℚ),
    zipWith_getD _ _ _ 0 (by norm_num) (by norm_num)]
  simp only [List.map_cons, List.headD_cons]
  have e1 : (List.replicate 32 (1:ℚ)).getD 0 0 = 1 := rfl
  have e0 : (List.replicate 32 (0:ℚ)).getD 0 0 = 0 := rfl
  rw [e1, e0]
  norm_num

/-- C5 amended: the new priority handed to `update_priorities` for
sampled transition `i` equals the importance-weighted squared TD error
plus `1e-5`, where through shape broadcasting the weight factor is the
first sample's weight for every row:
`prios[i][0] = (q_i - e_i)^2 * w_0 + 1e-5`. -/
theorem priority_weighted_broadcast (q_value expected_q_value weights : List ℚ)
    (i : ℕ) (hi : i < q_value.length) (hi2 : i < expected_q_value.length)
    (hw : weights ≠ []) :
    ((priosMatrix q_value expected_q_value weights).getD i []).headD 0 =
      (q_value.getD i 0 - expected_q_value.getD i 0) ^ 2 * weights.headD 0
        + 1/100000 := by
  obtain ⟨w0, ws, rfl⟩ := List.exists_cons_of_ne_nil hw
  have hz : i < (List.zipWith (fun q e : ℚ => (q - e) ^ 2)
      q_value expected_q_value).length := by
    rw [List.length_zipWith]
    omega
  unfold priosMatrix
  rw [map_getD _ _ i (by unfold lossMatrix; simpa using hz)
    ([] : List ℚ) ([] : List ℚ)]
  unfold lossMatrix
  rw [map_getD _ _ i hz (0:ℚ) ([] : List ℚ), zipWith_getD _ _ _ i hi hi2]
  rfl

/-- Witness for C5 amended on the counterexample's batch. -/
theorem priority_weighted_broadcast_witness :
    ((priosMatrix (List.replicate 32 1) (List.replicate 32 0)
        (((1:ℚ)/2) :: List.replicate 31 1)).getD 0 []).headD 0 =
      ((List.replicate 32 (1:ℚ)).getD 0 0 -
        (List.replicate 32 (0:ℚ)).getD 0 0) ^ 2 *
          ((((1:ℚ)/2) :: List.replicate 31 1).headD 0) + 1/100000 :=
  priority_weighted_broadcast _ _ _ 0 (by decide) (by decide) (by decide)
